import Mathlib

/-!
Shallow embedding of `src/visibility_engine.py` (visibility-polygon engine).

Python floats are modelled as real numbers; Python's `None`-or-value results
as `Option`; the mutable `Wall` object as a record updated by pure state
passing; the Python `set` of seen rounding keys as a list of integers with
membership tests; Python object identity for walls (used by the hit set) as
the wall's index in the engine's wall list; `list.sort` as `List.mergeSort`
(both are stable sorts); and `round(a, 4)` as the integer `round (a * 10000)`
(round-to-nearest; Python rounds exact decimal half-ties to even, a case
that only matters on a measure-zero set of inputs).
-/

open Real

/-- The 2D vector class `Vec2` of the source (fields `x`, `y`). -/
@[ext]
structure Vec2 where
  x : ℝ
  y : ℝ

noncomputable instance : Add Vec2 := ⟨fun a b => ⟨a.x + b.x, a.y + b.y⟩⟩

noncomputable instance : Sub Vec2 := ⟨fun a b => ⟨a.x - b.x, a.y - b.y⟩⟩

noncomputable instance : HMul Vec2 ℝ Vec2 := ⟨fun a s => ⟨a.x * s, a.y * s⟩⟩

theorem Vec2.add_def (a b : Vec2) : a + b = ⟨a.x + b.x, a.y + b.y⟩ := rfl

theorem Vec2.sub_def (a b : Vec2) : a - b = ⟨a.x - b.x, a.y - b.y⟩ := rfl

theorem Vec2.mul_def (a : Vec2) (s : ℝ) : a * s = ⟨a.x * s, a.y * s⟩ := rfl

/-- `Vec2.cross`: the scalar 2D cross product `x1*y2 - y1*x2`. -/
noncomputable def Vec2.cross (a b : Vec2) : ℝ := a.x * b.y - a.y * b.x

/-- `Vec2.from_angle`: unit direction vector for an angle. -/
noncomputable def Vec2.from_angle (θ : ℝ) : Vec2 := ⟨Real.cos θ, Real.sin θ⟩

/-- `math.atan2`, modelled as the argument of the complex number `x + y*I`
(range `(-π, π]`, `atan2 0 0 = 0`, matching Python on real inputs). -/
noncomputable def atan2 (y x : ℝ) : ℝ := Complex.arg ⟨x, y⟩

/-- The `Segment` class: a pair of endpoints. -/
@[ext]
structure Segment where
  p1 : Vec2
  p2 : Vec2

/-- The `Wall` class: rest-pose endpoints `base_p1`/`base_p2`, the live
segment, and the kinematic parameters. -/
structure Wall where
  base_p1 : Vec2
  base_p2 : Vec2
  segment : Segment
  dynamic : Bool
  rotation_center : Option Vec2
  angular_speed : ℝ
  velocity : Vec2
  angle : ℝ

/-- The `Wall` constructor: copies `p1`, `p2` into both the rest pose and the
live segment, and starts `angle` at `0`. -/
def Wall.make (p1 p2 : Vec2) (dynamic : Bool) (rotation_center : Option Vec2)
    (angular_speed : ℝ) (velocity : Vec2) : Wall :=
  ⟨p1, p2, ⟨p1, p2⟩, dynamic, rotation_center, angular_speed, velocity, 0⟩

/-- `rotate_around(point, center, angle)` from the source. -/
noncomputable def rotate_around (point center : Vec2) (angle : ℝ) : Vec2 :=
  let translated := point - center
  let c := Real.cos angle
  let s := Real.sin angle
  let rotated : Vec2 := ⟨translated.x * c - translated.y * s,
                         translated.x * s + translated.y * c⟩
  center + rotated

/-- `Wall.update(dt)` from the source: early return when not dynamic; else
rotate about the pivot when rotation is active, then translate when the
velocity is nonzero. -/
noncomputable def Wall.update (w : Wall) (dt : ℝ) : Wall :=
  if w.dynamic = false then w
  else
    let w1 : Wall :=
      match w.rotation_center with
      | some center =>
        if w.angular_speed ≠ 0 then
          let θ := w.angle + w.angular_speed * dt
          { w with angle := θ,
                   segment := ⟨rotate_around w.base_p1 center θ,
                               rotate_around w.base_p2 center θ⟩ }
        else w
      | none => w
    if w1.velocity.x ≠ 0 ∨ w1.velocity.y ≠ 0 then
      { w1 with segment := ⟨w1.segment.p1 + w1.velocity * dt,
                            w1.segment.p2 + w1.velocity * dt⟩ }
    else w1

/-- First `while` loop of `angle_diff`: add `2π` while `diff <= -π`. -/
noncomputable def wrapUp (d : ℝ) : ℝ :=
  if h : d ≤ -π then wrapUp (d + 2 * π) else d
termination_by ⌊(-π - d) / (2 * π) + 1⌋₊
decreasing_by
  have hπ : (0:ℝ) < π := Real.pi_pos
  have h2π : (0:ℝ) < 2 * π := by linarith
  have hx : (0:ℝ) ≤ (-π - d) / (2 * π) := by
    apply div_nonneg _ h2π.le
    linarith
  have he : (-π - (d + 2 * π)) / (2 * π) + 1 = (-π - d) / (2 * π) := by
    field_simp
    ring
  rw [he, Nat.floor_add_one hx]
  exact Nat.lt_succ_self _

/-- Second `while` loop of `angle_diff`: subtract `2π` while `diff > π`. -/
noncomputable def wrapDown (d : ℝ) : ℝ :=
  if h : π < d then wrapDown (d - 2 * π) else d
termination_by ⌊(d - π) / (2 * π) + 1⌋₊
decreasing_by
  have hπ : (0:ℝ) < π := Real.pi_pos
  have h2π : (0:ℝ) < 2 * π := by linarith
  have hx : (0:ℝ) ≤ (d - π) / (2 * π) := by
    apply div_nonneg _ h2π.le
    linarith
  have he : (d - 2 * π - π) / (2 * π) + 1 = (d - π) / (2 * π) := by
    field_simp
    ring
  rw [he, Nat.floor_add_one hx]
  exact Nat.lt_succ_self _

/-- `angle_diff(a, b)` from the source. -/
noncomputable def angle_diff (a b : ℝ) : ℝ := wrapDown (wrapUp (a - b))

/-- `ray_segment_intersection(origin, direction, a, b)` from the source. -/
noncomputable def ray_segment_intersection (origin direction a b : Vec2) :
    Option (ℝ × ℝ) :=
  let v1 := origin - a
  let v2 := b - a
  let denom := direction.cross v2
  if |denom| < 1 / 1000000 then none
  else
    let t := v2.cross v1 / denom
    let u := direction.cross v1 / denom
    if t < 0 then none
    else some (t, u)

/-- The scan loop of `cast_ray`, over index-annotated walls (the index models
Python object identity), carrying `closest_t` and the best hit so far as the
pair `(closest_t, wall index)`. -/
noncomputable def castRayAux (origin direction : Vec2) :
    List (ℕ × Wall) → ℝ → Option (ℝ × ℕ) → Option (ℝ × ℕ)
  | [], _, best => best
  | (i, w) :: rest, closest, best =>
    match ray_segment_intersection origin direction w.segment.p1 w.segment.p2 with
    | none => castRayAux origin direction rest closest best
    | some (t, u) =>
      if 0 ≤ t ∧ t < closest ∧ 0 ≤ u ∧ u ≤ 1 then
        castRayAux origin direction rest t (some (t, i))
      else
        castRayAux origin direction rest closest best

/-- `VisibilityEngine.cast_ray(origin, angle, max_dist)`: the closest hit point
and the struck wall's index, or `none`. -/
noncomputable def cast_ray (walls : List Wall) (origin : Vec2) (angle : ℝ)
    (max_dist : ℝ) : Option (Vec2 × ℕ) :=
  let direction := Vec2.from_angle angle
  match castRayAux origin direction walls.enum max_dist none with
  | none => none
  | some (t, i) => some (origin + direction * t, i)

/-- The angular epsilon `1e-3` used to bracket wall endpoints. -/
noncomputable def engineEps : ℝ := 1 / 1000

/-- Candidate angles from every wall endpoint: `angle - ε, angle, angle + ε`
for each endpoint of each wall's current segment, in wall order. -/
noncomputable def endpointCandidates (walls : List Wall) (origin : Vec2) :
    List ℝ :=
  walls.flatMap fun w =>
    [w.segment.p1, w.segment.p2].flatMap fun p =>
      let rel := p - origin
      let angle := atan2 rel.y rel.x
      [angle - engineEps, angle, angle + engineEps]

/-- Bulk samples in 360° mode: 64 angles uniformly over `[-π, π)`. -/
noncomputable def bulk360 : List ℝ :=
  (List.range 64).map fun i => -π + 2 * π * (i : ℝ) / 64

/-- Bulk samples in FOV mode: 33 angles uniformly over the field of view. -/
noncomputable def bulkFov (facing_angle fov_angle : ℝ) : List ℝ :=
  (List.range 33).map fun i =>
    facing_angle + (-(fov_angle / 2) + fov_angle * (i : ℝ) / 32)

/-- Normalization used in the dedup loop: `atan2(sin a, cos a)`. -/
noncomputable def normalizeAngle (a : ℝ) : ℝ := atan2 (Real.sin a) (Real.cos a)

/-- The dedup-and-FOV-filter loop of `compute_visibility_polygon`: normalize
each candidate, drop candidates whose 4-decimal rounding key was already seen
(the key is recorded before the FOV test, as in the source), and in FOV mode
drop candidates farther than `fov/2` from the facing angle. -/
noncomputable def dedupFilter (full_360 : Bool) (facing_angle fov_angle : ℝ) :
    List ℝ → List ℤ → List ℝ
  | [], _ => []
  | a :: rest, seen =>
    let an := normalizeAngle a
    let key : ℤ := round (an * 10000)
    if key ∈ seen then dedupFilter full_360 facing_angle fov_angle rest seen
    else
      if full_360 = false ∧ |angle_diff an facing_angle| > fov_angle / 2 then
        dedupFilter full_360 facing_angle fov_angle rest (key :: seen)
      else
        an :: dedupFilter full_360 facing_angle fov_angle rest (key :: seen)

/-- Boolean order on the reals, for sorting. -/
noncomputable def realLe : ℝ → ℝ → Bool := fun a b => decide (a ≤ b)

/-- Boolean order on pairs by first component, for the FOV-mode key sort. -/
noncomputable def pairLe : ℝ × ℝ → ℝ × ℝ → Bool := fun p q => decide (p.1 ≤ q.1)

/-- The deduplicated, filtered, normalized candidate list, sorted ascending
(`unique_angles` after `unique_angles.sort()` in the source). -/
noncomputable def uniqueAngles (walls : List Wall) (origin : Vec2)
    (facing_angle fov_angle : ℝ) (full_360 : Bool) : List ℝ :=
  let angles := endpointCandidates walls origin ++
    (if full_360 then bulk360 else bulkFov facing_angle fov_angle)
  (dedupFilter full_360 facing_angle fov_angle angles []).mergeSort realLe

/-- The final casting order (`ordered_angles` in the source): absolute-angle
order in 360° mode, facing-relative signed-difference order in FOV mode. -/
noncomputable def orderedAngles (walls : List Wall) (origin : Vec2)
    (facing_angle fov_angle : ℝ) (full_360 : Bool) : List ℝ :=
  let ua := uniqueAngles walls origin facing_angle fov_angle full_360
  if full_360 then ua
  else
    let pairs := ua.map fun a => (angle_diff a facing_angle, a)
    (pairs.mergeSort pairLe).map Prod.snd

/-- The final ray-casting loop: pairs `(angle, hit point)` in casting order;
misses contribute nothing. (The source runs this loop once before ordering
and discards that first result; only this final loop is observable.) -/
noncomputable def annotatedPoints (walls : List Wall) (origin : Vec2)
    (facing_angle fov_angle : ℝ) (full_360 : Bool) : List (ℝ × Vec2) :=
  (orderedAngles walls origin facing_angle fov_angle full_360).filterMap
    fun a => (cast_ray walls origin a 1000).map fun hit => (a, hit.1)

/-- The hit set: indices of walls struck by some cast ray. -/
noncomputable def hitWalls (walls : List Wall) (origin : Vec2)
    (facing_angle fov_angle : ℝ) (full_360 : Bool) : Finset ℕ :=
  ((orderedAngles walls origin facing_angle fov_angle full_360).filterMap
    fun a => (cast_ray walls origin a 1000).map Prod.snd).toFinset

/-- `VisibilityEngine.compute_visibility_polygon`: the ordered visible points
(`poly_points`) and the set of struck wall indices (`hit_walls`). -/
noncomputable def compute_visibility_polygon (walls : List Wall) (origin : Vec2)
    (facing_angle fov_angle : ℝ) (full_360 : Bool) : List Vec2 × Finset ℕ :=
  ((annotatedPoints walls origin facing_angle fov_angle full_360).map Prod.snd,
   hitWalls walls origin facing_angle fov_angle full_360)

/-- The translation step of `Wall.update` as the spec describes it: add
`velocity * dt` to both endpoints of the segment as it stands, when the
velocity is nonzero; otherwise leave the segment alone. Used to state the
step-sequencing claims about `Wall.update`. -/
noncomputable def translateIfMoving (v : Vec2) (dt : ℝ) (s : Segment) :
    Segment :=
  if v.x ≠ 0 ∨ v.y ≠ 0 then ⟨s.p1 + v * dt, s.p2 + v * dt⟩ else s

/-!
Theorems.
-/

/-- The first wrap loop ends strictly above `-π` and only adds multiples
of `2π`; it is the identity on inputs already above `-π`. -/
theorem wrapUp_spec (d : ℝ) :
    -π < wrapUp d ∧ (∃ k : ℕ, wrapUp d = d + 2 * π * k) ∧
      (-π < d → wrapUp d = d) := by
  induction d using wrapUp.induct with
  | case1 d h ih =>
    rw [wrapUp, dif_pos h]
    obtain ⟨hgt, ⟨k, hk⟩, _⟩ := ih
    refine ⟨hgt, ⟨k + 1, ?_⟩, fun hd => absurd h (not_le.mpr hd)⟩
    rw [hk]
    push_cast
    ring
  | case2 d h =>
    rw [wrapUp, dif_neg h]
    exact ⟨not_le.mp h, ⟨0, by push_cast; ring⟩, fun _ => rfl⟩

/-- The second wrap loop ends at or below `π`, preserves being above `-π`,
and only subtracts multiples of `2π`; it is the identity at or below `π`. -/
theorem wrapDown_spec (d : ℝ) :
    wrapDown d ≤ π ∧ (-π < d → -π < wrapDown d) ∧
      (∃ k : ℕ, wrapDown d = d - 2 * π * k) ∧ (d ≤ π → wrapDown d = d) := by
  have hπ : (0:ℝ) < π := Real.pi_pos
  induction d using wrapDown.induct with
  | case1 d h ih =>
    rw [wrapDown, dif_pos h]
    obtain ⟨hle, himp, ⟨k, hk⟩, _⟩ := ih
    refine ⟨hle, fun _ => himp (by linarith), ⟨k + 1, ?_⟩,
      fun hd => absurd h (not_lt.mpr hd)⟩
    rw [hk]
    push_cast
    ring
  | case2 d h =>
    rw [wrapDown, dif_neg h]
    exact ⟨not_lt.mp h, fun hd => hd, ⟨0, by push_cast; ring⟩, fun _ => rfl⟩

/-- `angle_diff` lands in `(-π, π]` and differs from `a - b` by an integer
multiple of `2π`. -/
theorem angle_diff_spec (a b : ℝ) :
    angle_diff a b ∈ Set.Ioc (-π) π ∧
      ∃ k : ℤ, angle_diff a b = a - b + 2 * π * k := by
  obtain ⟨h1, ⟨k1, hk1⟩, -⟩ := wrapUp_spec (a - b)
  obtain ⟨h2, h3, ⟨k2, hk2⟩, -⟩ := wrapDown_spec (wrapUp (a - b))
  unfold angle_diff
  refine ⟨⟨h3 h1, h2⟩, ⟨(k1 : ℤ) - (k2 : ℤ), ?_⟩⟩
  rw [hk2, hk1]
  push_cast
  ring

/-- Concrete evaluation of `angle_diff` across the `±π` wrap: the raw
difference is `2π - 0.02`, and one pass of the second wrap loop lands
at `-0.02`. -/
theorem angle_diff_wrap_example :
    angle_diff (π - 1/100) (-π + 1/100) = -(1/50) := by
  have hπ : (3:ℝ) < π := Real.pi_gt_three
  unfold angle_diff
  have hd : (π - 1/100) - (-π + 1/100) = 2*π - 1/50 := by ring
  rw [hd]
  rw [wrapUp, dif_neg (by linarith)]
  rw [wrapDown, dif_pos (by linarith)]
  have h2 : 2*π - 1/50 - 2*π = -(1/50) := by ring
  rw [h2]
  rw [wrapDown, dif_neg (by linarith)]

/-- C7 counterexample: `signedDifference(π - 0.01, -π + 0.01)` evaluates to
`-0.02` (the wrap goes clockwise), not approximately `+0.02` as claimed. -/
theorem C7_counterexample :
    angle_diff (π - 1/100) (-π + 1/100) = -(1/50) ∧
      angle_diff (π - 1/100) (-π + 1/100) ≠ 1/50 := by
  refine ⟨angle_diff_wrap_example, ?_⟩
  rw [angle_diff_wrap_example]
  norm_num

/-- C7 (amended): `signedDifference(a, b)` returns the shortest signed
angular displacement from `b` to `a`, normalized into `(-π, π]` by repeatedly
adding or subtracting `2π` (it differs from `a - b` by an integer multiple of
`2π`); in particular `signedDifference(π - 0.01, -π + 0.01) = -0.02`, the
displacement of magnitude `0.02` taken with negative sign. -/
theorem C7_angle_diff :
    (∀ a b : ℝ, angle_diff a b ∈ Set.Ioc (-π) π ∧
      ∃ k : ℤ, angle_diff a b = a - b + 2 * π * k) ∧
    angle_diff (π - 1/100) (-π + 1/100) = -(1/50) :=
  ⟨angle_diff_spec, angle_diff_wrap_example⟩

/-- Concrete evaluation: a ray from the origin along angle `0` meets the
segment `((5,-1),(5,1))` at `t = 5`, `u = 1/2`. -/
theorem rsi_front_example :
    ray_segment_intersection ⟨0, 0⟩ (Vec2.from_angle 0) ⟨5, -1⟩ ⟨5, 1⟩ =
      some (5, 1/2) := by
  unfold ray_segment_intersection Vec2.from_angle
  simp only [Vec2.sub_def, Vec2.cross, Real.cos_zero, Real.sin_zero]
  norm_num

/-- Concrete evaluation: the segment `((-5,-1),(-5,1))` lies behind the ray
from the origin along angle `0`, so there is no intersection. -/
theorem rsi_behind_example :
    ray_segment_intersection ⟨0, 0⟩ (Vec2.from_angle 0) ⟨-5, -1⟩ ⟨-5, 1⟩ =
      none := by
  unfold ray_segment_intersection Vec2.from_angle
  simp only [Vec2.sub_def, Vec2.cross, Real.cos_zero, Real.sin_zero]
  norm_num

/-- When `|direction × (b - a)| < 1e-6` the primitive reports no
intersection. -/
theorem rsi_parallel (origin direction a b : Vec2)
    (h : |direction.cross (b - a)| < 1 / 1000000) :
    ray_segment_intersection origin direction a b = none := by
  unfold ray_segment_intersection
  rw [if_pos h]

/-- C1: the ray-segment intersection primitive: a ray from `(0,0)` with
direction the unit vector at angle `0` returns `t = 5, u = 1/2` against the
segment `((5,-1),(5,1))`; returns no intersection against `((-5,-1),(-5,1))`
(the intersection is behind the origin); and for any ray and segment with
`|direction × (b - a)| < 1e-6`, returns no intersection. -/
theorem C1_ray_segment_intersection :
    ray_segment_intersection ⟨0, 0⟩ (Vec2.from_angle 0) ⟨5, -1⟩ ⟨5, 1⟩ =
      some (5, 1/2) ∧
    ray_segment_intersection ⟨0, 0⟩ (Vec2.from_angle 0) ⟨-5, -1⟩ ⟨-5, 1⟩ =
      none ∧
    ∀ origin direction a b : Vec2,
      |direction.cross (b - a)| < 1 / 1000000 →
      ray_segment_intersection origin direction a b = none :=
  ⟨rsi_front_example, rsi_behind_example, rsi_parallel⟩

/-- C1 witness: the parallel branch of the theorem applied to a concrete
collinear ray and segment (`denom = 0`). -/
theorem C1_ray_segment_intersection_witness :
    ray_segment_intersection ⟨0, 0⟩ ⟨1, 0⟩ ⟨5, 0⟩ ⟨6, 0⟩ = none :=
  C1_ray_segment_intersection.2.2 ⟨0, 0⟩ ⟨1, 0⟩ ⟨5, 0⟩ ⟨6, 0⟩ (by
    simp only [Vec2.sub_def, Vec2.cross]
    norm_num)

/-- `Wall.update` returns its argument unchanged when the wall is static. -/
theorem wall_update_static (w : Wall) (dt : ℝ) (h : w.dynamic = false) :
    w.update dt = w := by
  unfold Wall.update
  rw [if_pos h]

/-- `Wall.update` on a dynamic wall with active rotation: the angle advances
by `angular_speed * dt`, both endpoints are recomputed from the rest pose,
and then the translation step applies to the rotated segment. -/
theorem wall_update_rot (w : Wall) (dt : ℝ) (c : Vec2)
    (hdyn : w.dynamic = true) (hc : w.rotation_center = some c)
    (hω : w.angular_speed ≠ 0) :
    w.update dt =
      { w with
        angle := w.angle + w.angular_speed * dt,
        segment := translateIfMoving w.velocity dt
          ⟨rotate_around w.base_p1 c (w.angle + w.angular_speed * dt),
           rotate_around w.base_p2 c (w.angle + w.angular_speed * dt)⟩ } := by
  obtain ⟨bp1, bp2, seg, dyn, rc, ω, vel, ang⟩ := w
  dsimp only at hdyn hc hω ⊢
  subst hdyn hc
  unfold Wall.update translateIfMoving
  rw [if_neg (by simp)]
  dsimp only
  rw [if_pos hω]
  dsimp only
  by_cases hv : vel.x ≠ 0 ∨ vel.y ≠ 0
  · rw [if_pos hv, if_pos hv]
  · rw [if_neg hv, if_neg hv]

/-- `Wall.update` on a dynamic wall with inactive rotation: only the
translation step applies, to the segment as it stood. -/
theorem wall_update_norot (w : Wall) (dt : ℝ) (hdyn : w.dynamic = true)
    (hrot : w.rotation_center = none ∨ w.angular_speed = 0) :
    w.update dt = { w with segment := translateIfMoving w.velocity dt w.segment } := by
  obtain ⟨bp1, bp2, seg, dyn, rc, ω, vel, ang⟩ := w
  dsimp only at hdyn hrot ⊢
  subst hdyn
  unfold Wall.update translateIfMoving
  rw [if_neg (by simp)]
  rcases hrot with hrc | hω
  · subst hrc
    dsimp only
    by_cases hv : vel.x ≠ 0 ∨ vel.y ≠ 0
    · rw [if_pos hv, if_pos hv]
    · rw [if_neg hv, if_neg hv]
  · rcases rc with _ | c <;> dsimp only
    · by_cases hv : vel.x ≠ 0 ∨ vel.y ≠ 0
      · rw [if_pos hv, if_pos hv]
      · rw [if_neg hv, if_neg hv]
    · rw [if_neg (not_not_intro hω)]
      dsimp only
      by_cases hv : vel.x ≠ 0 ∨ vel.y ≠ 0
      · rw [if_pos hv, if_pos hv]
      · rw [if_neg hv, if_neg hv]

/-- C5: `Wall.update(dt)` is a no-op when the wall is not dynamic (every
field unchanged). When dynamic: if a pivot is present and the angular speed
is nonzero, the accumulated angle is incremented by `angular_speed * dt` and
both endpoints of the current segment are recomputed by rotating the rest
endpoints about the pivot by the new accumulated angle, overwriting the
segment; then, exactly when the velocity is nonzero, `velocity * dt` is added
to both endpoints of the segment as it stands after the rotation step. When
rotation is inactive, only the translation step applies, to the segment as it
stood. -/
theorem C5_wall_update (w : Wall) (dt : ℝ) :
    (w.dynamic = false → w.update dt = w) ∧
    (w.dynamic = true →
      (∀ c, w.rotation_center = some c → w.angular_speed ≠ 0 →
        w.update dt =
          { w with
            angle := w.angle + w.angular_speed * dt,
            segment := translateIfMoving w.velocity dt
              ⟨rotate_around w.base_p1 c (w.angle + w.angular_speed * dt),
               rotate_around w.base_p2 c (w.angle + w.angular_speed * dt)⟩ }) ∧
      ((w.rotation_center = none ∨ w.angular_speed = 0) →
        w.update dt =
          { w with segment := translateIfMoving w.velocity dt w.segment })) :=
  ⟨wall_update_static w dt,
   fun hdyn =>
    ⟨fun c hc hω => wall_update_rot w dt c hdyn hc hω,
     fun hrot => wall_update_norot w dt hdyn hrot⟩⟩

/-- C5 witness: a static wall is left unchanged, and a rotating-translating
wall (`pivot = (0,0)`, `angular_speed = π`, `velocity = (1,1)`, `dt = 1`)
ends with its segment rotated by `π` and then shifted by `(1,1)`. -/
theorem C5_wall_update_witness :
    (Wall.make ⟨1, 2⟩ ⟨3, 4⟩ false none 0 ⟨0, 0⟩).update 1 =
      Wall.make ⟨1, 2⟩ ⟨3, 4⟩ false none 0 ⟨0, 0⟩ ∧
    ((Wall.make ⟨1, 0⟩ ⟨2, 0⟩ true (some ⟨0, 0⟩) π ⟨1, 1⟩).update 1).segment =
      ⟨⟨0, 1⟩, ⟨-1, 1⟩⟩ := by
  constructor
  · exact (C5_wall_update _ 1).1 rfl
  · have h := ((C5_wall_update
      (Wall.make ⟨1, 0⟩ ⟨2, 0⟩ true (some ⟨0, 0⟩) π ⟨1, 1⟩) 1).2 rfl).1
      ⟨0, 0⟩ rfl Real.pi_ne_zero
    rw [h]
    unfold Wall.make translateIfMoving rotate_around
    dsimp only
    rw [if_pos (by norm_num)]
    have hθ : (0:ℝ) + π * 1 = π := by ring
    rw [hθ, Real.cos_pi, Real.sin_pi]
    ext <;> dsimp only [Vec2.sub_def, Vec2.add_def, Vec2.mul_def] <;> norm_num

/-- C6: for a dynamic wall with active rotation, after any `update(dt)` the
current segment's endpoints equal the rest endpoints rotated about the pivot
by the new accumulated angle plus `velocity * dt`; in particular the result
does not depend on the segment held before the call, so any previously
accumulated translation is discarded whenever rotation runs. -/
theorem C6_rotation_discards_translation (w : Wall) (dt : ℝ) (c : Vec2)
    (hdyn : w.dynamic = true) (hc : w.rotation_center = some c)
    (hω : w.angular_speed ≠ 0) :
    (w.update dt).segment.p1 =
      rotate_around w.base_p1 c (w.angle + w.angular_speed * dt) +
        w.velocity * dt ∧
    (w.update dt).segment.p2 =
      rotate_around w.base_p2 c (w.angle + w.angular_speed * dt) +
        w.velocity * dt ∧
    (w.update dt).angle = w.angle + w.angular_speed * dt ∧
    ∀ s : Segment,
      (Wall.update { w with segment := s } dt).segment = (w.update dt).segment := by
  have h := wall_update_rot w dt c hdyn hc hω
  have key : ∀ s0 : Segment, translateIfMoving w.velocity dt s0 =
      ⟨s0.p1 + w.velocity * dt, s0.p2 + w.velocity * dt⟩ := by
    intro s0
    unfold translateIfMoving
    by_cases hv : w.velocity.x ≠ 0 ∨ w.velocity.y ≠ 0
    · rw [if_pos hv]
    · rw [if_neg hv]
      push_neg at hv
      obtain ⟨hvx, hvy⟩ := hv
      have hzp : ∀ q : Vec2, q + w.velocity * dt = q := by
        intro q
        ext <;> simp [Vec2.add_def, Vec2.mul_def, hvx, hvy]
      rw [hzp, hzp]
  refine ⟨?_, ?_, ?_, ?_⟩
  · rw [h]
    dsimp only
    rw [key]
  · rw [h]
    dsimp only
    rw [key]
  · rw [h]
  · intro s
    rw [wall_update_rot { w with segment := s } dt c hdyn hc hω, h]

/-- C6 witness: a rotating wall with nonzero velocity, rotated by `π` about
the origin and shifted by `(3,5)` in one update. -/
theorem C6_rotation_discards_translation_witness :
    ((Wall.make ⟨1, 0⟩ ⟨0, 2⟩ true (some ⟨0, 0⟩) π ⟨3, 5⟩).update 1).segment.p1 =
      ⟨2, 5⟩ ∧
    ((Wall.make ⟨1, 0⟩ ⟨0, 2⟩ true (some ⟨0, 0⟩) π ⟨3, 5⟩).update 1).segment.p2 =
      ⟨3, 3⟩ := by
  have h := C6_rotation_discards_translation
    (Wall.make ⟨1, 0⟩ ⟨0, 2⟩ true (some ⟨0, 0⟩) π ⟨3, 5⟩) 1 ⟨0, 0⟩ rfl rfl
    Real.pi_ne_zero
  obtain ⟨h1, h2, -, -⟩ := h
  rw [h1, h2]
  unfold Wall.make rotate_around
  dsimp only
  have hθ : (0:ℝ) + π * 1 = π := by ring
  rw [hθ, Real.cos_pi, Real.sin_pi]
  constructor <;>
    · ext <;> dsimp only [Vec2.sub_def, Vec2.add_def, Vec2.mul_def] <;> norm_num

/-- C8: kinematics round-trip: a wall built with `pivot = (0,0)`,
`angular_speed = π`, zero velocity, dynamic, updated once with `dt = 2`
(a full `2π` rotation from accumulated angle `0`), has its current segment
equal to the original rest endpoints (exactly, in real arithmetic). -/
theorem C8_kinematics_round_trip (p1 p2 : Vec2) :
    ((Wall.make p1 p2 true (some ⟨0, 0⟩) π ⟨0, 0⟩).update 2).segment =
      ⟨p1, p2⟩ := by
  have h := wall_update_rot (Wall.make p1 p2 true (some ⟨0, 0⟩) π ⟨0, 0⟩) 2
    ⟨0, 0⟩ rfl rfl Real.pi_ne_zero
  rw [h]
  unfold Wall.make translateIfMoving rotate_around
  dsimp only
  rw [if_neg (by simp)]
  have hθ : (0:ℝ) + π * 2 = 2 * π := by ring
  rw [hθ, Real.cos_two_pi, Real.sin_two_pi]
  ext <;> dsimp only [Vec2.sub_def, Vec2.add_def, Vec2.mul_def] <;> ring

/-- If the scan loop returns no hit, the incoming best was `none` and no
scanned wall admits an intersection with `0 ≤ t < closest` and `0 ≤ u ≤ 1`. -/
theorem castRayAux_none_spec (origin direction : Vec2) :
    ∀ (L : List (ℕ × Wall)) (closest : ℝ) (best : Option (ℝ × ℕ)),
      castRayAux origin direction L closest best = none →
      best = none ∧
      ∀ p ∈ L, ∀ t u : ℝ,
        ray_segment_intersection origin direction p.2.segment.p1
          p.2.segment.p2 = some (t, u) →
        ¬(0 ≤ t ∧ t < closest ∧ 0 ≤ u ∧ u ≤ 1) := by
  intro L
  induction L with
  | nil =>
    intro closest best h
    exact ⟨h, by simp⟩
  | cons hd tl ih =>
    intro closest best h
    obtain ⟨i, w⟩ := hd
    unfold castRayAux at h
    cases hres : ray_segment_intersection origin direction w.segment.p1
        w.segment.p2 with
    | none =>
      rw [hres] at h
      obtain ⟨hb, hrest⟩ := ih closest best h
      refine ⟨hb, ?_⟩
      intro p hp t u hrsi
      rcases List.mem_cons.mp hp with hp | hp
      · subst hp
        rw [hrsi] at hres
        cases hres
      · exact hrest p hp t u hrsi
    | some tu =>
      obtain ⟨t₀, u₀⟩ := tu
      rw [hres] at h
      dsimp only at h
      by_cases hcond : 0 ≤ t₀ ∧ t₀ < closest ∧ 0 ≤ u₀ ∧ u₀ ≤ 1
      · rw [if_pos hcond] at h
        obtain ⟨hb, -⟩ := ih t₀ (some (t₀, i)) h
        cases hb
      · rw [if_neg hcond] at h
        obtain ⟨hb, hrest⟩ := ih closest best h
        refine ⟨hb, ?_⟩
        intro p hp t u hrsi
        rcases List.mem_cons.mp hp with hp | hp
        · subst hp
          rw [hrsi] at hres
          injection hres with hres
          injection hres with h1 h2
          subst h1 h2
          exact hcond
        · exact hrest p hp t u hrsi

/-- If the scan loop returns a hit, it is either the incoming best or a
scanned wall's admissible intersection strictly closer than `closest`. -/
theorem castRayAux_some_spec (origin direction : Vec2) :
    ∀ (L : List (ℕ × Wall)) (closest : ℝ) (best : Option (ℝ × ℕ))
      (t : ℝ) (j : ℕ),
      castRayAux origin direction L closest best = some (t, j) →
      (best = some (t, j) ∨
        (t < closest ∧ ∃ p ∈ L, p.1 = j ∧ ∃ u : ℝ,
          ray_segment_intersection origin direction p.2.segment.p1
            p.2.segment.p2 = some (t, u) ∧ 0 ≤ t ∧ 0 ≤ u ∧ u ≤ 1)) := by
  intro L
  induction L with
  | nil =>
    intro closest best t j h
    exact Or.inl h
  | cons hd tl ih =>
    intro closest best t j h
    obtain ⟨i, w⟩ := hd
    unfold castRayAux at h
    cases hres : ray_segment_intersection origin direction w.segment.p1
        w.segment.p2 with
    | none =>
      rw [hres] at h
      rcases ih closest best t j h with hb | ⟨hlt, p, hp, hj, u, hu⟩
      · exact Or.inl hb
      · exact Or.inr ⟨hlt, p, List.mem_cons_of_mem _ hp, hj, u, hu⟩
    | some tu =>
      obtain ⟨t₀, u₀⟩ := tu
      rw [hres] at h
      dsimp only at h
      by_cases hcond : 0 ≤ t₀ ∧ t₀ < closest ∧ 0 ≤ u₀ ∧ u₀ ≤ 1
      · rw [if_pos hcond] at h
        rcases ih t₀ (some (t₀, i)) t j h with hb | ⟨hlt, p, hp, hj, u, hu⟩
        · injection hb with hb
          injection hb with h1 h2
          subst h1 h2
          exact Or.inr ⟨hcond.2.1, (i, w), List.mem_cons_self _ _, rfl, u₀,
            hres, hcond.1, hcond.2.2⟩
        · exact Or.inr ⟨lt_trans hlt hcond.2.1, p, List.mem_cons_of_mem _ hp,
            hj, u, hu⟩
      · rw [if_neg hcond] at h
        rcases ih closest best t j h with hb | ⟨hlt, p, hp, hj, u, hu⟩
        · exact Or.inl hb
        · exact Or.inr ⟨hlt, p, List.mem_cons_of_mem _ hp, hj, u, hu⟩

/-- The hit returned by the scan loop is minimal: no scanned wall has an
admissible intersection parameter strictly smaller (below `closest`). -/
theorem castRayAux_min (origin direction : Vec2) :
    ∀ (L : List (ℕ × Wall)) (closest : ℝ) (best : Option (ℝ × ℕ))
      (t : ℝ) (j : ℕ),
      castRayAux origin direction L closest best = some (t, j) →
      (∀ tb jb, best = some (tb, jb) → tb = closest) →
      t ≤ closest ∧
      ∀ p ∈ L, ∀ t' u' : ℝ,
        ray_segment_intersection origin direction p.2.segment.p1
          p.2.segment.p2 = some (t', u') →
        0 ≤ t' → t' < closest → 0 ≤ u' → u' ≤ 1 → t ≤ t' := by
  intro L
  induction L with
  | nil =>
    intro closest best t j h hb
    exact ⟨le_of_eq (hb t j h), by simp⟩
  | cons hd tl ih =>
    intro closest best t j h hb
    obtain ⟨i, w⟩ := hd
    unfold castRayAux at h
    cases hres : ray_segment_intersection origin direction w.segment.p1
        w.segment.p2 with
    | none =>
      rw [hres] at h
      obtain ⟨hle, hmin⟩ := ih closest best t j h hb
      refine ⟨hle, ?_⟩
      intro p hp t' u' hrsi
      rcases List.mem_cons.mp hp with hp | hp
      · subst hp
        rw [hrsi] at hres
        cases hres
      · exact hmin p hp t' u' hrsi
    | some tu =>
      obtain ⟨t₀, u₀⟩ := tu
      rw [hres] at h
      dsimp only at h
      by_cases hcond : 0 ≤ t₀ ∧ t₀ < closest ∧ 0 ≤ u₀ ∧ u₀ ≤ 1
      · rw [if_pos hcond] at h
        obtain ⟨hle, hmin⟩ := ih t₀ (some (t₀, i)) t j h
          (fun tb jb hbeq => by
            injection hbeq with hbeq
            injection hbeq with h1 h2
            exact h1.symm)
        refine ⟨le_trans hle hcond.2.1.le, ?_⟩
        intro p hp t' u' hrsi ht0 htc hu0 hu1
        rcases List.mem_cons.mp hp with hp | hp
        · subst hp
          rw [hrsi] at hres
          injection hres with hres
          injection hres with h1 h2
          subst h1
          exact hle
        · by_cases hlt : t' < t₀
          · exact hmin p hp t' u' hrsi ht0 hlt hu0 hu1
          · exact le_trans hle (le_of_not_lt hlt)
      · rw [if_neg hcond] at h
        obtain ⟨hle, hmin⟩ := ih closest best t j h hb
        refine ⟨hle, ?_⟩
        intro p hp t' u' hrsi ht0 htc hu0 hu1
        rcases List.mem_cons.mp hp with hp | hp
        · subst hp
          rw [hrsi] at hres
          injection hres with hres
          injection hres with h1 h2
          subst h1 h2
          exact absurd ⟨ht0, htc, hu0, hu1⟩ hcond
        · exact hmin p hp t' u' hrsi ht0 htc hu0 hu1

/-- Unfolding equation for `cast_ray`. -/
theorem cast_ray_eq (walls : List Wall) (origin : Vec2) (angle max_dist : ℝ) :
    cast_ray walls origin angle max_dist =
      match castRayAux origin (Vec2.from_angle angle) walls.enum max_dist none with
      | none => none
      | some (t, i) => some (origin + Vec2.from_angle angle * t, i) := rfl

/-- C2: `cast_ray` returns the hit point `origin + direction * t` and the
struck wall's index, where `t` is admissible for that wall
(`0 ≤ t < 1000 = maxDistance` and `0 ≤ u ≤ 1` against its current segment)
and minimal: no wall admits an admissible intersection with a strictly
smaller parameter. If no wall yields an admissible `(t, u)`, it returns no
hit. -/
theorem C2_cast_ray (walls : List Wall) (origin : Vec2) (angle : ℝ) :
    (∀ p : Vec2, ∀ j : ℕ, cast_ray walls origin angle 1000 = some (p, j) →
      ∃ w : Wall, walls[j]? = some w ∧ ∃ t u : ℝ,
        ray_segment_intersection origin (Vec2.from_angle angle)
          w.segment.p1 w.segment.p2 = some (t, u) ∧
        0 ≤ t ∧ t < 1000 ∧ 0 ≤ u ∧ u ≤ 1 ∧
        p = origin + Vec2.from_angle angle * t ∧
        ∀ j' : ℕ, ∀ w' : Wall, walls[j']? = some w' → ∀ t' u' : ℝ,
          ray_segment_intersection origin (Vec2.from_angle angle)
            w'.segment.p1 w'.segment.p2 = some (t', u') →
          0 ≤ t' → t' < 1000 → 0 ≤ u' → u' ≤ 1 → t ≤ t') ∧
    (cast_ray walls origin angle 1000 = none →
      ∀ j : ℕ, ∀ w : Wall, walls[j]? = some w → ∀ t u : ℝ,
        ray_segment_intersection origin (Vec2.from_angle angle)
          w.segment.p1 w.segment.p2 = some (t, u) →
        ¬(0 ≤ t ∧ t < 1000 ∧ 0 ≤ u ∧ u ≤ 1)) := by
  constructor
  · intro p j hsome
    rw [cast_ray_eq] at hsome
    cases haux : castRayAux origin (Vec2.from_angle angle) walls.enum 1000 none with
    | none =>
      rw [haux] at hsome
      cases hsome
    | some ti =>
      obtain ⟨t, i⟩ := ti
      rw [haux] at hsome
      dsimp only at hsome
      injection hsome with hsome
      injection hsome with hp hj
      subst hp
      subst hj
      rcases castRayAux_some_spec origin (Vec2.from_angle angle) walls.enum
          1000 none t i haux with hb | ⟨hlt, pr, hpr, hj, u, hrsi, ht0, hu0, hu1⟩
      · cases hb
      · obtain ⟨-, hmin⟩ := castRayAux_min origin (Vec2.from_angle angle)
          walls.enum 1000 none t i haux (fun tb jb hh => by cases hh)
        have hget : walls[pr.1]? = some pr.2 :=
          List.mem_enum_iff_getElem?.mp hpr
        rw [hj] at hget
        refine ⟨pr.2, hget, t, u, hrsi, ht0, hlt, hu0, hu1, rfl, ?_⟩
        intro j' w' hw' t' u' hrsi' ht0' hlt' hu0' hu1'
        exact hmin (j', w') (List.mem_enum_iff_getElem?.mpr hw') t' u' hrsi'
          ht0' hlt' hu0' hu1'
  · intro hnone j w hw t u hrsi
    rw [cast_ray_eq] at hnone
    cases haux : castRayAux origin (Vec2.from_angle angle) walls.enum 1000 none with
    | some ti =>
      obtain ⟨t', i⟩ := ti
      rw [haux] at hnone
      cases hnone
    | none =>
      obtain ⟨-, hall⟩ := castRayAux_none_spec origin (Vec2.from_angle angle)
        walls.enum 1000 none haux
      exact hall (j, w) (List.mem_enum_iff_getElem?.mpr hw) t u hrsi

/-- Concrete evaluation of `cast_ray` on a one-wall scene: the ray at angle
`0` from the origin hits the wall `((5,-1),(5,1))` at `(5,0)`. -/
theorem cast_ray_example :
    cast_ray [Wall.make ⟨5, -1⟩ ⟨5, 1⟩ false none 0 ⟨0, 0⟩] ⟨0, 0⟩ 0 1000 =
      some (⟨5, 0⟩, 0) := by
  rw [cast_ray_eq]
  have haux : castRayAux ⟨0, 0⟩ (Vec2.from_angle 0)
      [(0, Wall.make ⟨5, -1⟩ ⟨5, 1⟩ false none 0 ⟨0, 0⟩)] 1000 none =
      some (5, 0) := by
    unfold castRayAux
    have hseg1 : (Wall.make (⟨5, -1⟩ : Vec2) ⟨5, 1⟩ false none 0
        ⟨0, 0⟩).segment.p1 = ⟨5, -1⟩ := rfl
    have hseg2 : (Wall.make (⟨5, -1⟩ : Vec2) ⟨5, 1⟩ false none 0
        ⟨0, 0⟩).segment.p2 = ⟨5, 1⟩ := rfl
    rw [hseg1, hseg2, rsi_front_example]
    dsimp only
    rw [if_pos (by norm_num)]
    rfl
  have henum : ([Wall.make ⟨5, -1⟩ ⟨5, 1⟩ false none 0 ⟨0, 0⟩] :
      List Wall).enum =
      [(0, Wall.make ⟨5, -1⟩ ⟨5, 1⟩ false none 0 ⟨0, 0⟩)] := rfl
  rw [henum, haux]
  dsimp only
  have hpt : (⟨0, 0⟩ : Vec2) + Vec2.from_angle 0 * (5:ℝ) = ⟨5, 0⟩ := by
    unfold Vec2.from_angle
    rw [Real.cos_zero, Real.sin_zero]
    ext <;> dsimp only [Vec2.add_def, Vec2.mul_def] <;> norm_num
  rw [hpt]

/-- C2 witness: the theorem applied to a concrete one-wall scene, with its
hypothesis discharged by evaluating `cast_ray` there. -/
theorem C2_cast_ray_witness :
    ∃ w : Wall,
      ([Wall.make ⟨5, -1⟩ ⟨5, 1⟩ false none 0 ⟨0, 0⟩] :
        List Wall)[0]? = some w ∧
      ∃ t u : ℝ,
        ray_segment_intersection ⟨0, 0⟩ (Vec2.from_angle 0)
          w.segment.p1 w.segment.p2 = some (t, u) ∧
        0 ≤ t ∧ t < 1000 ∧ 0 ≤ u ∧ u ≤ 1 ∧
        (⟨5, 0⟩ : Vec2) = ⟨0, 0⟩ + Vec2.from_angle 0 * t ∧
        ∀ j' : ℕ, ∀ w' : Wall,
          ([Wall.make ⟨5, -1⟩ ⟨5, 1⟩ false none 0 ⟨0, 0⟩] :
            List Wall)[j']? = some w' →
          ∀ t' u' : ℝ,
          ray_segment_intersection ⟨0, 0⟩ (Vec2.from_angle 0)
            w'.segment.p1 w'.segment.p2 = some (t', u') →
          0 ≤ t' → t' < 1000 → 0 ≤ u' → u' ≤ 1 → t ≤ t' :=
  (C2_cast_ray [Wall.make ⟨5, -1⟩ ⟨5, 1⟩ false none 0 ⟨0, 0⟩] ⟨0, 0⟩ 0).1
    ⟨5, 0⟩ 0 cast_ray_example

/-- Unfolding equation for `uniqueAngles` in 360° mode. -/
theorem uniqueAngles_eq_true (walls : List Wall) (origin : Vec2) (f v : ℝ) :
    uniqueAngles walls origin f v true =
      (dedupFilter true f v
        (endpointCandidates walls origin ++ bulk360) []).mergeSort realLe := rfl

/-- Unfolding equation for `uniqueAngles` in FOV mode. -/
theorem uniqueAngles_eq_false (walls : List Wall) (origin : Vec2) (f v : ℝ) :
    uniqueAngles walls origin f v false =
      (dedupFilter false f v
        (endpointCandidates walls origin ++ bulkFov f v) []).mergeSort realLe :=
  rfl

/-- Unfolding equation for `orderedAngles` in 360° mode. -/
theorem orderedAngles_true_eq (walls : List Wall) (origin : Vec2) (f v : ℝ) :
    orderedAngles walls origin f v true = uniqueAngles walls origin f v true :=
  rfl

/-- Unfolding equation for `orderedAngles` in FOV mode. -/
theorem orderedAngles_false_eq (walls : List Wall) (origin : Vec2) (f v : ℝ) :
    orderedAngles walls origin f v false =
      (((uniqueAngles walls origin f v false).map
        (fun a => (angle_diff a f, a))).mergeSort pairLe).map Prod.snd := rfl

/-- C9: the visibility computation is total in the model; with an empty wall
list it returns an empty point sequence and an empty hit set (for every
origin, facing angle, field of view and mode), and in general the point
sequence is exactly the casting order with misses contributing no point. -/
theorem C9_edge_cases (origin : Vec2) (facing_angle fov_angle : ℝ)
    (full_360 : Bool) :
    compute_visibility_polygon [] origin facing_angle fov_angle full_360 =
      ([], ∅) ∧
    ∀ walls : List Wall,
      (compute_visibility_polygon walls origin facing_angle fov_angle
          full_360).1 =
        (orderedAngles walls origin facing_angle fov_angle full_360).filterMap
          (fun a => (cast_ray walls origin a 1000).map fun hit => hit.1) := by
  constructor
  · have hcr : ∀ a : ℝ, cast_ray [] origin a 1000 = none := fun a => rfl
    unfold compute_visibility_polygon annotatedPoints hitWalls
    simp [hcr]
  · intro walls
    unfold compute_visibility_polygon annotatedPoints
    dsimp only
    rw [List.map_filterMap]
    congr 1
    funext a
    cases cast_ray walls origin a 1000 <;> simp

/-- C10: in 360° mode the whole computation ignores the facing angle and
field-of-view arguments: any two calls with the same walls and origin agree
regardless of those two arguments. -/
theorem C10_full360_ignores_facing_fov (walls : List Wall) (origin : Vec2)
    (f1 v1 f2 v2 : ℝ) :
    compute_visibility_polygon walls origin f1 v1 true =
      compute_visibility_polygon walls origin f2 v2 true := by
  have hdf : ∀ (l : List ℝ) (seen : List ℤ),
      dedupFilter true f1 v1 l seen = dedupFilter true f2 v2 l seen := by
    intro l
    induction l with
    | nil => intro seen; rfl
    | cons b rest ih =>
      intro seen
      unfold dedupFilter
      by_cases hk : round (normalizeAngle b * 10000) ∈ seen
      · rw [if_pos hk, if_pos hk]
        exact ih seen
      · rw [if_neg hk, if_neg hk]
        rw [if_neg (by simp), if_neg (by simp)]
        rw [ih]
  have hord : orderedAngles walls origin f1 v1 true =
      orderedAngles walls origin f2 v2 true := by
    rw [orderedAngles_true_eq, orderedAngles_true_eq,
        uniqueAngles_eq_true, uniqueAngles_eq_true, hdf]
  unfold compute_visibility_polygon annotatedPoints hitWalls
  rw [hord]

/-- Every angle emitted by the dedup loop in FOV mode passed the half-angle
filter. -/
theorem mem_dedupFilter_fov (f v : ℝ) :
    ∀ (l : List ℝ) (seen : List ℤ) (a : ℝ),
      a ∈ dedupFilter false f v l seen → |angle_diff a f| ≤ v / 2 := by
  intro l
  induction l with
  | nil =>
    intro seen a h
    cases h
  | cons b rest ih =>
    intro seen a h
    unfold dedupFilter at h
    by_cases hk : round (normalizeAngle b * 10000) ∈ seen
    · rw [if_pos hk] at h
      exact ih _ a h
    · rw [if_neg hk] at h
      by_cases hf : false = false ∧ |angle_diff (normalizeAngle b) f| > v / 2
      · rw [if_pos hf] at h
        exact ih _ a h
      · rw [if_neg hf] at h
        rcases List.mem_cons.mp h with heq | h
        · subst heq
          push_neg at hf
          exact hf rfl
        · exact ih _ a h

/-- Every angle in the FOV-mode casting order satisfies the half-angle
bound. -/
theorem mem_orderedAngles_fov (walls : List Wall) (origin : Vec2) (f v a : ℝ)
    (ha : a ∈ orderedAngles walls origin f v false) :
    |angle_diff a f| ≤ v / 2 := by
  rw [orderedAngles_false_eq] at ha
  obtain ⟨pr, hpr, hsnd⟩ := List.mem_map.mp ha
  have hpr2 := (List.mergeSort_perm _ pairLe).mem_iff.mp hpr
  obtain ⟨a2, ha2, heq⟩ := List.mem_map.mp hpr2
  have haa : a2 = a := by
    rw [← heq] at hsnd
    exact hsnd
  subst haa
  rw [uniqueAngles_eq_false] at ha2
  have ha3 := (List.mergeSort_perm _ realLe).mem_iff.mp ha2
  exact mem_dedupFilter_fov f v _ [] a2 ha3

/-- Shape of a successful `cast_ray`: the returned point is
`origin + direction * t` for an admissible `t` below the maximum distance. -/
theorem cast_ray_some_shape (walls : List Wall) (origin : Vec2)
    (angle md : ℝ) (p : Vec2) (j : ℕ)
    (h : cast_ray walls origin angle md = some (p, j)) :
    ∃ t : ℝ, 0 ≤ t ∧ t < md ∧ p = origin + Vec2.from_angle angle * t := by
  rw [cast_ray_eq] at h
  cases haux : castRayAux origin (Vec2.from_angle angle) walls.enum md none with
  | none =>
    rw [haux] at h
    cases h
  | some ti =>
    obtain ⟨t, i⟩ := ti
    rw [haux] at h
    dsimp only at h
    injection h with h
    injection h with hp hj
    rcases castRayAux_some_spec origin (Vec2.from_angle angle) walls.enum md
        none t i haux with hb | ⟨hlt, pr, hpr, hj2, u, hrsi, ht0, hu0, hu1⟩
    · cases hb
    · exact ⟨t, ht0, hlt, hp.symm⟩

/-- C3: in FOV mode, every returned point was cast along an angle whose
signed difference to the facing angle is at most half the field of view in
absolute value (candidates beyond the half-width are discarded before
casting), and the point lies on the ray from the origin at that angle at a
nonnegative parameter below the maximum distance. -/
theorem C3_fov_containment (walls : List Wall) (origin : Vec2)
    (facing_angle fov_angle : ℝ) :
    List.Forall
      (fun p : ℝ × Vec2 =>
        |angle_diff p.1 facing_angle| ≤ fov_angle / 2 ∧
        ∃ t : ℝ, 0 ≤ t ∧ t < 1000 ∧
          p.2 = origin + Vec2.from_angle p.1 * t)
      (annotatedPoints walls origin facing_angle fov_angle false) := by
  rw [List.forall_iff_forall_mem]
  intro p hp
  unfold annotatedPoints at hp
  obtain ⟨a, ha, hmap⟩ := List.mem_filterMap.mp hp
  cases hcr : cast_ray walls origin a 1000 with
  | none =>
    rw [hcr] at hmap
    cases hmap
  | some hit =>
    rw [hcr] at hmap
    obtain ⟨pt, j⟩ := hit
    dsimp only [Option.map] at hmap
    injection hmap with hmap
    subst hmap
    constructor
    · exact mem_orderedAngles_fov walls origin facing_angle fov_angle a ha
    · exact cast_ray_some_shape walls origin a 1000 pt j hcr

/-- Transitivity of the boolean real order. -/
theorem realLe_trans : ∀ a b c : ℝ,
    realLe a b = true → realLe b c = true → realLe a c = true := by
  intro a b c hab hbc
  simp only [realLe, decide_eq_true_eq] at hab hbc ⊢
  exact le_trans hab hbc

/-- Totality of the boolean real order. -/
theorem realLe_total : ∀ a b : ℝ, (realLe a b || realLe b a) = true := by
  intro a b
  simp only [realLe, Bool.or_eq_true, decide_eq_true_eq]
  exact le_total a b

/-- Transitivity of the first-component boolean order on pairs. -/
theorem pairLe_trans : ∀ p q r : ℝ × ℝ,
    pairLe p q = true → pairLe q r = true → pairLe p r = true := by
  intro p q r hpq hqr
  simp only [pairLe, decide_eq_true_eq] at hpq hqr ⊢
  exact le_trans hpq hqr

/-- Totality of the first-component boolean order on pairs. -/
theorem pairLe_total : ∀ p q : ℝ × ℝ, (pairLe p q || pairLe q p) = true := by
  intro p q
  simp only [pairLe, Bool.or_eq_true, decide_eq_true_eq]
  exact le_total p.1 q.1

/-- The casting loop preserves any key ordering on the angles: if the angle
list is pairwise nondecreasing under `key`, so is the annotated point list on
its angle components. -/
theorem pairwise_castList (walls : List Wall) (origin : Vec2) (key : ℝ → ℝ)
    (l : List ℝ)
    (h : List.Pairwise (fun a b => key a ≤ key b) l) :
    List.Pairwise (fun p q : ℝ × Vec2 => key p.1 ≤ key q.1)
      (l.filterMap fun a => (cast_ray walls origin a 1000).map
        fun hit => (a, hit.1)) := by
  rw [List.pairwise_filterMap]
  refine h.imp_of_mem ?_
  intro a b ha hb hab x hx y hy
  cases hcr : cast_ray walls origin a 1000 with
  | none =>
    rw [hcr] at hx
    cases hx
  | some hit =>
    rw [hcr] at hx
    cases hcr2 : cast_ray walls origin b 1000 with
    | none =>
      rw [hcr2] at hy
      cases hy
    | some hit2 =>
      rw [hcr2] at hy
      simp only [Option.map_some', Option.mem_def, Option.some_inj] at hx hy
      subst hx
      subst hy
      exact hab

/-- C4: the annotated point sequence (angle, point) returned by the casting
loop is ordered: in 360° mode by ascending normalized absolute angle, and in
FOV mode by ascending signed difference to the facing angle. -/
theorem C4_output_ordering (walls : List Wall) (origin : Vec2)
    (facing_angle fov_angle : ℝ) :
    List.Pairwise (fun p q : ℝ × Vec2 => p.1 ≤ q.1)
      (annotatedPoints walls origin facing_angle fov_angle true) ∧
    List.Pairwise (fun p q : ℝ × Vec2 =>
        angle_diff p.1 facing_angle ≤ angle_diff q.1 facing_angle)
      (annotatedPoints walls origin facing_angle fov_angle false) ∧
    ∀ b : Bool,
      (compute_visibility_polygon walls origin facing_angle fov_angle b).1 =
        (annotatedPoints walls origin facing_angle fov_angle b).map Prod.snd := by
  refine ⟨?_, ?_, fun b => rfl⟩
  · unfold annotatedPoints
    have hsorted : List.Pairwise (fun a b : ℝ => a ≤ b)
        (orderedAngles walls origin facing_angle fov_angle true) := by
      rw [orderedAngles_true_eq, uniqueAngles_eq_true]
      refine (List.sorted_mergeSort realLe_trans realLe_total _).imp ?_
      intro a b hab
      simpa only [realLe, decide_eq_true_eq] using hab
    exact pairwise_castList walls origin (fun a => a) _ hsorted
  · unfold annotatedPoints
    have hsorted : List.Pairwise
        (fun a b : ℝ =>
          angle_diff a facing_angle ≤ angle_diff b facing_angle)
        (orderedAngles walls origin facing_angle fov_angle false) := by
      rw [orderedAngles_false_eq, List.pairwise_map]
      have hps := List.sorted_mergeSort pairLe_trans pairLe_total
        ((uniqueAngles walls origin facing_angle fov_angle false).map
          (fun a => (angle_diff a facing_angle, a)))
      refine hps.imp_of_mem ?_
      intro p q hp hq hpq
      have hp2 := (List.mergeSort_perm _ pairLe).mem_iff.mp hp
      have hq2 := (List.mergeSort_perm _ pairLe).mem_iff.mp hq
      obtain ⟨a1, -, he1⟩ := List.mem_map.mp hp2
      obtain ⟨a2, -, he2⟩ := List.mem_map.mp hq2
      simp only [pairLe, decide_eq_true_eq] at hpq
      rw [← he1, ← he2] at hpq ⊢
      exact hpq
    exact pairwise_castList walls origin
      (fun a => angle_diff a facing_angle) _ hsorted
